import Mathlib

/-!
Verification development for the tree-shaking statement-graph core of the
mako bundler, shallowly embedded from
`crates/mako/src/plugins/tree_shaking/statement_graph.rs` and
`crates/mako/src/plugins/tree_shaking/module_side_effects_flag.rs`.

Idents are `String`s; Rust `HashSet<String>` becomes `Finset String`
(all set operations performed on them in the embedded code are
order-insensitive), `HashMap<String, HashSet<String>>` becomes an
association list, and containers whose iteration order is observable
(`Vec`s of specifiers, the dependency-edge lists, the work queue) stay
`List`s so that the order-sensitivity of the original loops is preserved.
-/

/-- Modelled from the spec: `strip_context` (defined in
`tree_shaking/shake.rs`, which is not part of the sources here) removes the
binding-scope suffix that the parser appends to an ident; the suffix is
modelled as everything from the first `#` on, so `foo#2` strips to `foo`. -/
def strip_context (s : String) : String :=
  ⟨s.data.takeWhile (fun c => c ≠ '#')⟩

/-- Modelled from the spec: `is_ident_equal` (defined in
`tree_shaking/module.rs`, which is not part of the sources here) compares two
idents stripped of binding-scope context: `strip(a) == strip(b)`. -/
def is_ident_equal (a b : String) : Bool :=
  strip_context a == strip_context b

/-- `ImportSpecifierInfo` from `statement_graph.rs`. -/
inductive ImportSpecifierInfo where
  | Namespace (local_name : String)
  | Named (local_name : String) (imported : Option String)
  | Default (local_name : String)
deriving DecidableEq, Repr

/-- `ImportInfo` from `statement_graph.rs`. -/
structure ImportInfo where
  source : String
  specifiers : List ImportSpecifierInfo
  stmt_id : Nat
deriving DecidableEq, Repr

/-- The loop body of `ImportInfo::find_define_specifier`: return the first
specifier that matches the queried ident.  `Namespace` and `Named` are
compared with `is_ident_equal`, `Default` with plain `==`. -/
def findDefineAux (ident : String) : List ImportSpecifierInfo → Option ImportSpecifierInfo
  | [] => none
  | s :: rest =>
    match s with
    | ImportSpecifierInfo.Namespace ns =>
        if is_ident_equal ident ns then some s else findDefineAux ident rest
    | ImportSpecifierInfo.Named l _ =>
        if is_ident_equal ident l then some s else findDefineAux ident rest
    | ImportSpecifierInfo.Default l =>
        if ident == l then some s else findDefineAux ident rest

/-- `ImportInfo::find_define_specifier` from `statement_graph.rs`. -/
def ImportInfo.find_define_specifier (info : ImportInfo) (ident : String) :
    Option ImportSpecifierInfo :=
  findDefineAux ident info.specifiers

/-- `ExportSpecifierInfo` from `statement_graph.rs`. -/
inductive ExportSpecifierInfo where
  | All (exported_idents : List String)
  | Named (local_name : String) (exported : Option String)
  | Default (name : Option String)
  | Namespace (ns : String)
  | Ambiguous (idents : List String)
deriving DecidableEq, Repr

/-- `ExportInfo` from `statement_graph.rs`. -/
structure ExportInfo where
  source : Option String
  specifiers : List ExportSpecifierInfo
  stmt_id : Nat
deriving DecidableEq, Repr

/-- `ExportInfoMatch` from `statement_graph.rs`. -/
inductive ExportInfoMatch where
  | Matched
  | Ambiguous
  | Unmatched
deriving DecidableEq, Repr

/-- The per-specifier match condition shared by the scanning loops of
`find_export_specifier` and `matches_ident` (rules 1-5 of the export
resolver). -/
def exportSpecMatches (ident : String) : ExportSpecifierInfo → Bool
  | ExportSpecifierInfo.Default _ => ident == "default"
  | ExportSpecifierInfo.Named l e => is_ident_equal ident (e.getD l)
  | ExportSpecifierInfo.Namespace ns => is_ident_equal ident ns
  | ExportSpecifierInfo.All names => names.any (fun i => is_ident_equal ident i)
  | ExportSpecifierInfo.Ambiguous names => names.any (fun i => is_ident_equal ident i)

/-- Whether a specifier is an `Ambiguous` one. -/
def isAmbiguousSpec : ExportSpecifierInfo → Bool
  | ExportSpecifierInfo.Ambiguous _ => true
  | _ => false

/-- The post-scan step of `find_export_specifier`: if exactly one ambiguous
candidate was recorded, pop and return it. -/
def popSoleCandidate : List ExportSpecifierInfo → Option ExportSpecifierInfo
  | [c] => some c
  | _ => none

/-- The loop of `ExportInfo::find_export_specifier`: scan the specifiers,
returning the first match; `Ambiguous` specifiers that do not match are
pushed onto `ambiguous_specifier_candidates`; after the scan, a sole
candidate is popped and returned. -/
def findExportSpecAux (ident : String) :
    List ExportSpecifierInfo → List ExportSpecifierInfo → Option ExportSpecifierInfo
  | [], cands => popSoleCandidate cands
  | s :: rest, cands =>
    if exportSpecMatches ident s then some s
    else if isAmbiguousSpec s then findExportSpecAux ident rest (cands ++ [s])
    else findExportSpecAux ident rest cands

/-- `ExportInfo::find_export_specifier` from `statement_graph.rs`. -/
def ExportInfo.find_export_specifier (info : ExportInfo) (ident : String) :
    Option ExportSpecifierInfo :=
  findExportSpecAux ident info.specifiers []

/-- The loop of `ExportInfo::matches_ident`: any rule 1-5 match returns
`Matched` immediately; a non-matching `Ambiguous` specifier downgrades the
pending result to `Ambiguous`; otherwise the result stays `Unmatched`. -/
def matchesIdentAux (ident : String) : List ExportSpecifierInfo → Bool → ExportInfoMatch
  | [], sawAmb => if sawAmb then ExportInfoMatch.Ambiguous else ExportInfoMatch.Unmatched
  | s :: rest, sawAmb =>
    if exportSpecMatches ident s then ExportInfoMatch.Matched
    else matchesIdentAux ident rest (sawAmb || isAmbiguousSpec s)

/-- `ExportInfo::matches_ident` from `statement_graph.rs`. -/
def ExportInfo.matches_ident (info : ExportInfo) (ident : String) : ExportInfoMatch :=
  matchesIdentAux ident info.specifiers false

/-- `Statement` from `statement_graph.rs`: the per-statement descriptor.
`defined_idents_map` (Rust `HashMap<String, HashSet<String>>`) is an
association list; the `span` field (an AST position) is omitted. -/
structure Statement where
  id : Nat
  import_info : Option ImportInfo
  export_info : Option ExportInfo
  defined_idents : Finset String
  used_idents : Finset String
  defined_idents_map : List (String × Finset String)
  is_self_executed : Bool
  has_side_effects : Bool
deriving DecidableEq

instance : Inhabited Statement :=
  ⟨⟨0, none, none, ∅, ∅, [], false, false⟩⟩

/-- `StatementGraph` from `statement_graph.rs`: the nodes are the statements
(one per body item) and the edges carry `StatementGraphEdge.idents` label
sets.  The edge list keeps petgraph's iteration order observable. -/
structure StatementGraph where
  stmts : List Statement
  edges : List (Nat × Nat × Finset String)
deriving DecidableEq

/-- `StatementGraph::stmt`: node lookup by statement id (the Rust code
panics on an unknown id; the model returns the default statement). -/
def StatementGraph.stmt (g : StatementGraph) (id : Nat) : Statement :=
  (g.stmts.find? (fun s => s.id == id)).getD default

/-- `StatementGraph::add_edge`: if an edge `from → to` already exists, union
the new idents into its label set; otherwise append a fresh edge. -/
def add_edge (es : List (Nat × Nat × Finset String)) (f t : Nat) (idents : Finset String) :
    List (Nat × Nat × Finset String) :=
  match es with
  | [] => [(f, t, idents)]
  | e :: rest =>
    if e.1 = f ∧ e.2.1 = t then (e.1, e.2.1, e.2.2 ∪ idents) :: rest
    else e :: add_edge rest f t idents

/-- `find_edge` + `edge_weight` on the edge list: label of the first edge
`from → to`, if any. -/
def lookupEdge (es : List (Nat × Nat × Finset String)) (f t : Nat) : Option (Finset String) :=
  match es with
  | [] => none
  | e :: rest => if e.1 = f ∧ e.2.1 = t then some e.2.2 else lookupEdge rest f t

/-- The `deps_idents` computed inside `StatementGraph::new` for the ordered
pair `(stmt, def_stmt)`: the defined idents of `def_stmt` that `stmt` uses
(plain string membership). -/
def edgeLabel (stmt def_stmt : Statement) : Finset String :=
  def_stmt.defined_idents.filter (fun di => di ∈ stmt.used_idents)

/-- The `edges_to_add` vector of `StatementGraph::new`: for every ordered
pair with a non-empty `deps_idents`, record `(stmt.id, def_stmt.id, deps)`. -/
def edgesToAdd (stmts : List Statement) : List (Nat × Nat × Finset String) :=
  stmts.flatMap (fun st =>
    stmts.filterMap (fun ds =>
      if (edgeLabel st ds).Nonempty then some (st.id, ds.id, edgeLabel st ds) else none))

/-- The edge-building phase of `StatementGraph::new`: fold `add_edge` over
`edges_to_add`. -/
def buildEdges (stmts : List Statement) : List (Nat × Nat × Finset String) :=
  (edgesToAdd stmts).foldl (fun es e => add_edge es e.1 e.2.1 e.2.2) []

/-- `StatementGraph::new`, starting from the already-analyzed statement
descriptors of the module body. -/
def StatementGraph.new (stmts : List Statement) : StatementGraph :=
  ⟨stmts, buildEdges stmts⟩

/-- `StatementGraph::dependencies`: the out-edges of a statement as
`(statement, label)` pairs, in edge-list order. -/
def StatementGraph.dependencies (g : StatementGraph) (sid : Nat) :
    List (Statement × Finset String) :=
  g.edges.filterMap (fun e => if e.1 = sid then some (g.stmt e.2.1, e.2.2) else none)

/-- Within one path segment: shell-glob matching of a pattern segment
against a path segment, `*` matching any run of characters and `?` exactly
one (neither crosses a `/`, since both lists are single segments). -/
def segMatch : List Char → List Char → Bool
  | [], [] => true
  | [], _ :: _ => false
  | '*' :: ps, ss => ss.tails.any (fun t => segMatch ps t)
  | '?' :: ps, _ :: ss => segMatch ps ss
  | _ :: _, [] => false
  | p :: ps, c :: ss => (p == c) && segMatch ps ss

/-- Segment-list glob matching: a literal `**` pattern segment matches any
number (including zero) of path segments; every other pattern segment must
match exactly one path segment via `segMatch`. -/
def globSegs : List (List Char) → List (List Char) → Bool
  | [], [] => true
  | ['*', '*'] :: ps, ss => ss.tails.any (fun t => globSegs ps t)
  | [], _ :: _ => false
  | _ :: _, [] => false
  | p :: ps, s :: ss => segMatch p s && globSegs ps ss

/-- Split a character list into its `/`-separated segments. -/
def splitSlash : List Char → List (List Char)
  | [] => [[]]
  | c :: rest =>
    if c = '/' then [] :: splitSlash rest
    else
      match splitSlash rest with
      | [] => [[c]]
      | s :: ss => (c :: s) :: ss

/-- Modelled from the spec: the shell-style glob matcher itself lives in the
external `glob` / `glob_match` crates, not in this repository; both are
modelled by a single engine where `*` and `?` do not cross `/` and a `**`
segment matches any number of segments. -/
def globMatch (pattern path : String) : Bool :=
  globSegs (splitSlash pattern.data) (splitSlash path.data)

/-- Rust `str::trim_start_matches("./")`: remove every leading `./`. -/
def trimDotSlashAux : List Char → List Char
  | c1 :: c2 :: rest =>
    if c1 = '.' ∧ c2 = '/' then trimDotSlashAux rest else c1 :: c2 :: rest
  | l => l

/-- `trim_start_matches("./")` on strings. -/
def trimDotSlash (s : String) : String :=
  ⟨trimDotSlashAux s.data⟩

/-- `match_glob_pattern` from `module_side_effects_flag.rs`: the path is
stripped of leading `./` first; a pattern containing no `/` is matched with
an implicit `**/` prepended; otherwise the pattern is stripped of leading
`./` and matched as is. -/
def match_glob_pattern (pattern path : String) : Bool :=
  let trimmed := trimDotSlash path
  if '/' ∈ pattern.data then globMatch (trimDotSlash pattern) trimmed
  else globMatch ("**/" ++ pattern) trimmed

/-- The JSON value type consumed by `ModuleInfo::match_flag` (serde
`Value`); the payloads of `Null`, `Number` and `Object` are irrelevant to
the matcher and are dropped. -/
inductive JsonValue where
  | bool (b : Bool)
  | str (s : String)
  | arr (elems : List JsonValue)
  | null
  | num
  | obj

mutual

/-- `ModuleInfo::match_flag` from `module_side_effects_flag.rs`: booleans
apply uniformly, strings are glob patterns, arrays are an OR over their
elements, anything else is `true`. -/
def match_flag : JsonValue → String → Bool
  | JsonValue.bool b, _ => b
  | JsonValue.str s, path => match_glob_pattern s path
  | JsonValue.arr elems, path => matchFlagAny elems path
  | _, _ => true

/-- The `flags.iter().any(...)` fold of the array case of `match_flag`. -/
def matchFlagAny : List JsonValue → String → Bool
  | [], _ => false
  | f :: rest, path => match_flag f path || matchFlagAny rest path

end

/-- The package descriptor reached through the resolver: `raw_json()` is the
manifest object (an association list of top-level keys) and `directory()`
the package root. -/
structure PackageJson where
  raw_json : List (String × JsonValue)
  directory : String

/-- `ResolvedResource`: carries the optional package descriptor of the
resolved module. -/
structure ResolvedResource where
  package_json : Option PackageJson

/-- `ResolverResource`: `Resolved` carries a `ResolvedResource`; every other
variant (externals etc.) is collapsed into `Other`, which
`get_side_effects_flag` treats uniformly. -/
inductive ResolverResource where
  | Resolved (r : ResolvedResource)
  | Other

/-- The fields of `ModuleInfo` consulted by `get_side_effects_flag`. -/
structure ModuleInfo where
  resolved_resource : Option ResolverResource
  path : String

/-- Modelled from the spec: the relative-to-root helper (in `module.rs`,
not among the sources) computes the module path relative to the package
root; modelled as stripping the root prefix and any following slashes. -/
def relative_to_root (path root : String) : String :=
  if root.data.isPrefixOf path.data then
    ⟨(path.data.drop root.data.length).dropWhile (fun c => c = '/')⟩
  else path

/-- `ModuleInfo::get_side_effects_flag` from `module_side_effects_flag.rs`:
`true` unless a resolved package descriptor with a `sideEffects` entry says
otherwise via `match_flag` on the package-relative path. -/
def ModuleInfo.get_side_effects_flag (m : ModuleInfo) : Bool :=
  match m.resolved_resource with
  | some (ResolverResource.Resolved r) =>
    match r.package_json with
    | some desc =>
      match desc.raw_json.lookup "sideEffects" with
      | some side_effect =>
        match_flag side_effect (relative_to_root m.path desc.directory)
      | none => true
    | none => true
  | _ => true

/-- Lexicographic comparison of character lists by code point, mirroring
Rust's `Ord` on `String` for the `sorted_idents.sort()` call (idents here
are ASCII, where code-point order and byte order agree). -/
def listCharLeB : List Char → List Char → Bool
  | [], _ => true
  | _ :: _, [] => false
  | c :: cs, d :: ds =>
    decide (c.toNat < d.toNat) || (c.toNat == d.toNat && listCharLeB cs ds)

/-- The `≤` on strings used to sort the ident lists inside `hash_stmt`. -/
def strLe (a b : String) : Prop := listCharLeB a.data b.data = true

instance : DecidableRel strLe := fun a b =>
  inferInstanceAs (Decidable (listCharLeB a.data b.data = true))

instance : IsTrans String strLe := by
  constructor
  have aux : ∀ x y z : List Char, listCharLeB x y = true → listCharLeB y z = true →
      listCharLeB x z = true := by
    intro x
    induction x with
    | nil => intro y z _ _; rfl
    | cons c cs ih =>
      intro y z hxy hyz
      cases y with
      | nil => simp [listCharLeB] at hxy
      | cons d ds =>
        cases z with
        | nil => simp [listCharLeB] at hyz
        | cons e es =>
          simp only [listCharLeB, Bool.or_eq_true, decide_eq_true_eq, Bool.and_eq_true,
            beq_iff_eq] at hxy hyz ⊢
          rcases hxy with h1 | ⟨h1, h2⟩ <;> rcases hyz with g1 | ⟨g1, g2⟩
          · exact Or.inl (by omega)
          · exact Or.inl (by omega)
          · exact Or.inl (by omega)
          · exact Or.inr ⟨by omega, ih ds es h2 g2⟩
  intro a b c hab hbc
  exact aux a.data b.data c.data hab hbc

instance : IsAntisymm String strLe := by
  constructor
  have aux : ∀ x y : List Char, listCharLeB x y = true → listCharLeB y x = true → x = y := by
    intro x
    induction x with
    | nil =>
      intro y _ hyx
      cases y with
      | nil => rfl
      | cons d ds => simp [listCharLeB] at hyx
    | cons c cs ih =>
      intro y hxy hyx
      cases y with
      | nil => simp [listCharLeB] at hxy
      | cons d ds =>
        simp only [listCharLeB, Bool.or_eq_true, decide_eq_true_eq, Bool.and_eq_true,
          beq_iff_eq] at hxy hyx
        rcases hxy with h1 | ⟨h1, h2⟩ <;> rcases hyx with g1 | ⟨g1, g2⟩
        · omega
        · omega
        · omega
        · have hcd : c = d := by
            apply Char.eq_of_val_eq
            apply UInt32.eq_of_toBitVec_eq
            apply BitVec.eq_of_toNat_eq
            exact h1
          rw [hcd, ih ds h2 g2]
  intro a b hab hba
  have h := aux a.data b.data hab hba
  cases a; cases b; exact congrArg String.mk h

instance : IsTotal String strLe := by
  constructor
  have aux : ∀ x y : List Char, listCharLeB x y = true ∨ listCharLeB y x = true := by
    intro x
    induction x with
    | nil => intro y; exact Or.inl rfl
    | cons c cs ih =>
      intro y
      cases y with
      | nil => exact Or.inr rfl
      | cons d ds =>
        simp only [listCharLeB, Bool.or_eq_true, decide_eq_true_eq, Bool.and_eq_true,
          beq_iff_eq]
        rcases Nat.lt_trichotomy c.toNat d.toNat with h | h | h
        · exact Or.inl (Or.inl h)
        · rcases ih ds with g | g
          · exact Or.inl (Or.inr ⟨h, g⟩)
          · exact Or.inr (Or.inr ⟨h.symm, g⟩)
        · exact Or.inr (Or.inl h)
  intro a b
  exact aux a.data b.data

/-- `UsedIdent` from `tree_shaking/module.rs` (the propagation currency). -/
inductive UsedIdent where
  | SwcIdent (i : String)
  | Default
  | InExportAll (specifier : String)
  | ExportAll
deriving DecidableEq

/-- The `used_statements` result map (`BTreeMap<StatementId, HashSet<String>>`),
kept as an association list sorted by ascending key. -/
abbrev OutMap := List (Nat × Finset String)

/-- A work-queue tuple `(stmt_id, used_defined_idents, used_dep_idents)`. -/
abbrev QEntry := Nat × Finset String × Finset String

/-- `BTreeMap::get` on the output map. -/
def outGet : OutMap → Nat → Option (Finset String)
  | [], _ => none
  | p :: rest, k => if p.1 = k then some p.2 else outGet rest k

/-- `BTreeMap::insert` on the output map: replace the entry if the key is
present, otherwise insert at the sorted position. -/
def outSet : OutMap → Nat → Finset String → OutMap
  | [], k, v => [(k, v)]
  | p :: rest, k, v =>
    if k < p.1 then (k, v) :: p :: rest
    else if k = p.1 then (k, v) :: rest
    else p :: outSet rest k v

/-- The head-of-loop output update: `used_statements.get_mut(&stmt_id)`
extends an existing entry, otherwise the set is inserted fresh. -/
def mergeOut (m : OutMap) (k : Nat) (v : Finset String) : OutMap :=
  match outGet m k with
  | some v0 => outSet m k (v0 ∪ v)
  | none => outSet m k v

/-- The sorted list of members of an ident set (ascending `strLe`),
mirroring `sorted_idents.sort()`. -/
def sortIdents (s : Finset String) : List String :=
  Quot.liftOn s.val (fun l => l.insertionSort strLe)
    (fun l₁ l₂ h => List.eq_of_perm_of_sorted
      (((l₁.perm_insertionSort strLe).trans h).trans (l₂.perm_insertionSort strLe).symm)
      (l₁.sorted_insertionSort strLe) (l₂.sorted_insertionSort strLe))

/-- `hash_stmt` from `analyze_used_statements_and_idents`: the visited key
`format!("{}:{}", stmt_id, sorted_idents.join(""))` — the sorted
used-defined idents are concatenated with no separator. -/
def hash_stmt (stmt_id : Nat) (used_defined_idents : Finset String) : String :=
  toString stmt_id ++ ":" ++ (sortIdents used_defined_idents).foldl (fun acc s => acc ++ s) ""

/-- The state of the fixpoint loop: the `stmts` work queue, the `visited`
hash set and the `used_statements` accumulator. -/
structure LoopState where
  queue : List QEntry
  visited : Finset String
  output : OutMap
deriving DecidableEq

/-- Pushing a dependency request: if the queue already holds a tuple for the
statement, extend both of its sets, else push a new tuple at the back. -/
def mergeQueue : List QEntry → Nat → Finset String → Finset String → List QEntry
  | [], i, a, b => [(i, a, b)]
  | e :: rest, i, a, b =>
    if e.1 = i then (e.1, e.2.1 ∪ a, e.2.2 ∪ b) :: rest
    else e :: mergeQueue rest i a b

/-- The `dep_used_defined_idents` of a dependency request: the members of
`used_dep_idents` that the dependency either maps in `defined_idents_map`
or has in `defined_idents`. -/
def depUsedDefined (dep : Statement) (uii : Finset String) : Finset String :=
  uii.filter (fun n => (dep.defined_idents_map.lookup n).isSome = true ∨ n ∈ dep.defined_idents)

/-- The `dep_stmt_idents` of a dependency request: the union of
`defined_idents_map` entries of the dependency over `used_dep_idents`. -/
def depStmtIdents (dep : Statement) (uii : Finset String) : Finset String :=
  uii.biUnion (fun n => (dep.defined_idents_map.lookup n).getD ∅)

/-- The inner `for (dep_stmt, dep_idents) in deps` loop: each dependency
whose edge label intersects `used_dep_idents` contributes a (possibly
merged) queue request. -/
def expandDeps (uii : Finset String) (deps : List (Statement × Finset String))
    (q : List QEntry) : List QEntry :=
  deps.foldl
    (fun q' d =>
      if (d.2 ∩ uii).Nonempty then
        mergeQueue q' d.1.id (depUsedDefined d.1 uii) (depStmtIdents d.1 uii)
      else q')
    q

/-- One iteration of the `while let Some(...) = stmts.pop_front()` loop:
merge the popped `used_defined_idents` into the output, skip expansion if
the visited key is present, otherwise record it and expand dependencies. -/
def stepLoop (g : StatementGraph) (st : LoopState) : LoopState :=
  match st.queue with
  | [] => st
  | (sid, udi, uii) :: rest =>
    let out := mergeOut st.output sid udi
    let h := hash_stmt sid udi
    if h ∈ st.visited then ⟨rest, st.visited, out⟩
    else ⟨expandDeps uii (g.dependencies sid) rest, insert h st.visited, out⟩

/-- The fixpoint loop, driven by a fuel counter (the termination theorem
shows the fuel computed by `fuelBound` always suffices to drain the
queue). -/
def loopFuel (g : StatementGraph) : Nat → LoopState → LoopState
  | 0, st => st
  | n + 1, st =>
    match st.queue with
    | [] => st
    | _ :: _ => loopFuel g n (stepLoop g st)

/-- Union of a list of finite sets. -/
def unionList (l : List (Finset String)) : Finset String :=
  l.foldr (fun a b => a ∪ b) ∅

/-- All idents stored in the `defined_idents_map` values of a statement. -/
def stmtMapIdents (s : Statement) : Finset String :=
  unionList (s.defined_idents_map.map (fun p => p.2))

/-- The statement ids a loop state can ever mention: the graph's ids, the
ids already queued, and the default id `0`. -/
def idUniverse (g : StatementGraph) (st : LoopState) : Finset Nat :=
  insert 0 ((g.stmts.map Statement.id).toFinset ∪ (st.queue.map (fun e => e.1)).toFinset)

/-- The idents a loop state can ever mention: everything in the graph's
`defined_idents_map` values plus everything already queued. -/
def identUniverse (g : StatementGraph) (st : LoopState) : Finset String :=
  unionList (g.stmts.map stmtMapIdents) ∪
    unionList (st.queue.map (fun e => e.2.1 ∪ e.2.2))

/-- Fuel sufficient to drain the queue: one iteration per queue entry plus
one per possible visited key (statement id × subset of the ident universe),
each of which can enqueue at most one request per edge. -/
def fuelBound (g : StatementGraph) (st : LoopState) : Nat :=
  (idUniverse g st).card * 2 ^ (identUniverse g st).card * (g.edges.length + 1) +
    st.queue.length

/-- The seed-phase accumulator of `analyze_used_statements_and_idents`:
`used_defined_idents`, `used_dep_idents`, the `skip` flag, and the output
map (written to directly by `InExportAll` / `ExportAll` members). -/
structure SeedAcc where
  udi : Finset String
  uii : Finset String
  skip : Bool
  output : OutMap
deriving DecidableEq

/-- Processing one member of a seed `used_export_idents` set. -/
def seedStep (g : StatementGraph) (stmt_id : Nat) (acc : SeedAcc) : UsedIdent → SeedAcc
  | UsedIdent.SwcIdent i =>
    { acc with
      udi := insert i acc.udi
      uii := acc.uii ∪ (((g.stmt stmt_id).defined_idents_map.lookup i).getD ∅) }
  | UsedIdent.Default =>
    { acc with uii := acc.uii ∪ (g.stmt stmt_id).used_idents }
  | UsedIdent.InExportAll specifier =>
    { acc with
      output := outSet acc.output stmt_id
        ((outGet acc.output stmt_id).elim {specifier} (fun s => insert specifier s))
      skip := true }
  | UsedIdent.ExportAll =>
    { acc with output := outSet acc.output stmt_id {"*"}, skip := true }

/-- One iteration of the outer `for (stmt_id, used_export_idents)` loop:
run the seed phase over the members, and unless `skip` was set, run the
fixpoint loop seeded with `(stmt_id, used_defined_idents, used_dep_idents)`
and a fresh `visited` set. -/
def processEntry (g : StatementGraph) (out : OutMap) (stmt_id : Nat)
    (used_export_idents : List UsedIdent) : OutMap :=
  let acc := used_export_idents.foldl (seedStep g stmt_id) ⟨∅, ∅, false, out⟩
  if acc.skip then acc.output
  else
    let st : LoopState := ⟨[(stmt_id, acc.udi, acc.uii)], ∅, acc.output⟩
    (loopFuel g (fuelBound g st) st).output

/-- `StatementGraph::analyze_used_statements_and_idents`: fold the per-seed
processing over the seed mapping (given in ascending-id order, mirroring
`BTreeMap` iteration; the members of each `HashSet<UsedIdent>` are listed in
the otherwise-unspecified hash-iteration order). -/
def analyze_used_statements_and_idents (g : StatementGraph)
    (used_exports : List (Nat × List UsedIdent)) : OutMap :=
  used_exports.foldl (fun out p => processEntry g out p.1 p.2) []

/-- The dependency idents a statement present in the output still needs:
the union of its `defined_idents_map` entries over its live defined
idents. -/
def outputNeeds (g : StatementGraph) (out : OutMap) (sid : Nat) : Finset String :=
  match outGet out sid with
  | some o => o.biUnion (fun n => (((g.stmt sid).defined_idents_map.lookup n).getD ∅))
  | none => ∅

/-- A statement descriptor with only the fields the propagator reads. -/
def exStmt (i : Nat) (d u : Finset String) (m : List (String × Finset String)) : Statement :=
  ⟨i, none, none, d, u, m, false, false⟩

/-- A six-statement module used to exercise the propagator: statement 0 is
the seeded root; 4 defines `a`, `b` and `ab` (with `ab` depending on `z`);
5 defines `z`.  The sorted concatenations of `{a, b}` and `{ab}` coincide,
so the two requests reaching statement 4 share a visited key. -/
def cexStmts : List Statement :=
  [exStmt 0 {"r"} {"u1", "u2"} [("r", {"u1", "u2"})],
   exStmt 1 {"u1"} {"a", "b"} [("u1", {"a", "b"})],
   exStmt 2 {"u2"} {"v3"} [("u2", {"v3"})],
   exStmt 3 {"v3"} {"ab"} [("v3", {"ab"})],
   exStmt 4 {"a", "b", "ab"} {"z"} [("a", ∅), ("b", ∅), ("ab", {"z"})],
   exStmt 5 {"z"} ∅ [("z", ∅)]]

/-- The dependency edges of `cexStmts` (exactly `buildEdges cexStmts`). -/
def cexEdges1 : List (Nat × Nat × Finset String) :=
  [(0, 1, {"u1"}), (0, 2, {"u2"}), (1, 4, {"a", "b"}), (2, 3, {"v3"}), (3, 4, {"ab"}),
   (4, 5, {"z"})]

/-- The same edges with the two out-edges of statement 0 swapped. -/
def cexEdges2 : List (Nat × Nat × Finset String) :=
  [(0, 2, {"u2"}), (0, 1, {"u1"}), (1, 4, {"a", "b"}), (2, 3, {"v3"}), (3, 4, {"ab"}),
   (4, 5, {"z"})]

/-- The test module with edges in source order. -/
def cexGraph1 : StatementGraph := ⟨cexStmts, cexEdges1⟩

/-- The test module with statement 0's out-edges iterated in the other
order. -/
def cexGraph2 : StatementGraph := ⟨cexStmts, cexEdges2⟩

/-- The seed mapping: the export of statement 0 (defining `r`) is used. -/
def cexSeeds : List (Nat × List UsedIdent) := [(0, [UsedIdent.SwcIdent "r"])]

/-- Invariant of the fixpoint loop: every queued tuple draws its statement
id from `S` and its two ident sets from `U`. -/
def queueOk (S : Finset Nat) (U : Finset String) (q : List QEntry) : Prop :=
  ∀ e ∈ q, e.1 ∈ S ∧ e.2.1 ⊆ U ∧ e.2.2 ⊆ U

/-- Invariant of the fixpoint loop: the graph's statement ids lie in `S`
(as does the id `0` of the default statement) and all `defined_idents_map`
values lie in `U`. -/
def graphOk (g : StatementGraph) (S : Finset Nat) (U : Finset String) : Prop :=
  0 ∈ S ∧ ∀ s ∈ g.stmts, s.id ∈ S ∧ stmtMapIdents s ⊆ U

/-- Every visited key a run over ids `S` and idents `U` can ever insert. -/
def allowedHashes (S : Finset Nat) (U : Finset String) : Finset String :=
  (S ×ˢ U.powerset).image (fun p => hash_stmt p.1 p.2)

/-- The termination measure of the fixpoint loop: the unvisited keys,
weighted by the maximal number of entries one expansion can enqueue, plus
the queue length. -/
def loopMeasure (g : StatementGraph) (S : Finset Nat) (U : Finset String)
    (st : LoopState) : Nat :=
  (allowedHashes S U \ st.visited).card * (g.edges.length + 1) + st.queue.length

/-! ## Helper lemmas -/

theorem findExportSpecAux_no_match (ident : String) (l cands : List ExportSpecifierInfo)
    (h : ∀ s ∈ l, exportSpecMatches ident s = false) :
    findExportSpecAux ident l cands =
      popSoleCandidate (cands ++ l.filter (fun s => isAmbiguousSpec s)) := by
  induction l generalizing cands with
  | nil => simp [findExportSpecAux]
  | cons s rest ih =>
    have hs := h s (by simp)
    have hrest : ∀ x ∈ rest, exportSpecMatches ident x = false :=
      fun x hx => h x (by simp [hx])
    by_cases ha : isAmbiguousSpec s = true
    · simp only [findExportSpecAux, hs, ha, if_false, if_true, Bool.false_eq_true]
      rw [ih (cands ++ [s]) hrest]
      simp [List.filter_cons, ha]
    · simp only [findExportSpecAux, hs, ha, if_false, Bool.false_eq_true]
      rw [ih cands hrest]
      simp only [Bool.not_eq_true] at ha
      simp [List.filter_cons, ha]

theorem matchesIdentAux_no_match (ident : String) (l : List ExportSpecifierInfo)
    (sawAmb : Bool) (h : ∀ s ∈ l, exportSpecMatches ident s = false) :
    matchesIdentAux ident l sawAmb =
      if sawAmb || l.any (fun s => isAmbiguousSpec s) then ExportInfoMatch.Ambiguous
      else ExportInfoMatch.Unmatched := by
  induction l generalizing sawAmb with
  | nil => simp [matchesIdentAux]
  | cons s rest ih =>
    have hs := h s (by simp)
    have hrest : ∀ x ∈ rest, exportSpecMatches ident x = false :=
      fun x hx => h x (by simp [hx])
    simp only [matchesIdentAux, hs, Bool.false_eq_true, if_false]
    rw [ih _ hrest]
    simp [List.any_cons, Bool.or_assoc]

/-! ## C1 -/

/-- C1 counterexample: for the export list `[Ambiguous ["x"]]` and the
queried ident `"y"`, no specifier of rules 1-4 matches and exactly one
`Ambiguous` specifier is recorded, yet `matches_ident` returns `Ambiguous`,
not `Matched` as the claim states (while `find_export_specifier` does
return the sole recorded specifier). -/
theorem matches_ident_unique_ambiguous_not_matched :
    (∀ s ∈ [ExportSpecifierInfo.Ambiguous ["x"]], exportSpecMatches "y" s = false) ∧
    ([ExportSpecifierInfo.Ambiguous ["x"]].filter (fun s => isAmbiguousSpec s) =
      [ExportSpecifierInfo.Ambiguous ["x"]]) ∧
    ExportInfo.matches_ident ⟨none, [ExportSpecifierInfo.Ambiguous ["x"]], 0⟩ "y" =
      ExportInfoMatch.Ambiguous ∧
    ExportInfo.matches_ident ⟨none, [ExportSpecifierInfo.Ambiguous ["x"]], 0⟩ "y" ≠
      ExportInfoMatch.Matched ∧
    ExportInfo.find_export_specifier ⟨none, [ExportSpecifierInfo.Ambiguous ["x"]], 0⟩ "y" =
      some (ExportSpecifierInfo.Ambiguous ["x"]) := by
  refine ⟨by decide, by decide, by decide, by decide, by decide⟩

/-- C1 (amended): if no export specifier matches the queried ident under
rules 1-5 and exactly one `Ambiguous` specifier is present, then
`find_export_specifier` promotes that sole recorded candidate and returns
it, while `matches_ident` reports the verdict `Ambiguous` (not `Matched`). -/
theorem export_resolver_unique_ambiguous (info : ExportInfo) (ident : String)
    (a : ExportSpecifierInfo)
    (hno : ∀ s ∈ info.specifiers, exportSpecMatches ident s = false)
    (hone : info.specifiers.filter (fun s => isAmbiguousSpec s) = [a]) :
    ExportInfo.matches_ident info ident = ExportInfoMatch.Ambiguous ∧
    ExportInfo.find_export_specifier info ident = some a := by
  constructor
  · rw [ExportInfo.matches_ident, matchesIdentAux_no_match ident _ _ hno]
    have : info.specifiers.any (fun s => isAmbiguousSpec s) = true := by
      rw [List.any_eq_true]
      have ha : a ∈ info.specifiers.filter (fun s => isAmbiguousSpec s) := by
        rw [hone]; simp
      rw [List.mem_filter] at ha
      exact ⟨a, ha.1, ha.2⟩
    simp [this]
  · rw [ExportInfo.find_export_specifier, findExportSpecAux_no_match ident _ _ hno]
    rw [List.nil_append, hone]
    rfl

/-- C1 witness: the amended theorem applied to a concrete export list with
one non-matching `Named` specifier and one `Ambiguous` specifier. -/
theorem export_resolver_unique_ambiguous_witness :
    ExportInfo.matches_ident ⟨some "m", [ExportSpecifierInfo.Named "a" none,
      ExportSpecifierInfo.Ambiguous ["w"]], 1⟩ "q" = ExportInfoMatch.Ambiguous ∧
    ExportInfo.find_export_specifier ⟨some "m", [ExportSpecifierInfo.Named "a" none,
      ExportSpecifierInfo.Ambiguous ["w"]], 1⟩ "q" =
      some (ExportSpecifierInfo.Ambiguous ["w"]) :=
  export_resolver_unique_ambiguous _ "q" (ExportSpecifierInfo.Ambiguous ["w"])
    (by decide) (by decide)

theorem findDefineAux_isSome_iff (ident : String) (l : List ImportSpecifierInfo) :
    (findDefineAux ident l).isSome = true ↔
      ∃ s ∈ l, (match s with
        | ImportSpecifierInfo.Namespace ns => strip_context ident = strip_context ns
        | ImportSpecifierInfo.Named loc _ => strip_context ident = strip_context loc
        | ImportSpecifierInfo.Default loc => ident = loc) := by
  induction l with
  | nil => simp [findDefineAux]
  | cons s rest ih =>
    cases s with
    | Namespace ns =>
      by_cases h : is_ident_equal ident ns = true
      · rw [is_ident_equal, beq_iff_eq] at h
        simp [findDefineAux, is_ident_equal, h]
      · rw [is_ident_equal, beq_iff_eq] at h
        simp only [findDefineAux, is_ident_equal, beq_iff_eq, h, if_false]
        rw [ih]
        simp [h]
    | Named loc imp =>
      by_cases h : is_ident_equal ident loc = true
      · rw [is_ident_equal, beq_iff_eq] at h
        simp [findDefineAux, is_ident_equal, h]
      · rw [is_ident_equal, beq_iff_eq] at h
        simp only [findDefineAux, is_ident_equal, beq_iff_eq, h, if_false]
        rw [ih]
        simp [h]
    | Default loc =>
      by_cases h : ident = loc
      · simp [findDefineAux, h]
      · have hb : (ident == loc) = false := by simp [h]
        simp only [findDefineAux, hb, Bool.false_eq_true, if_false]
        rw [ih]
        simp [h]

theorem mem_add_edge (es : List (Nat × Nat × Finset String)) (f t : Nat)
    (lab : Finset String) (e : Nat × Nat × Finset String) (he : e ∈ add_edge es f t lab) :
    e ∈ es ∨ e = (f, t, lab) ∨ ∃ l₀, (f, t, l₀) ∈ es ∧ e = (f, t, l₀ ∪ lab) := by
  induction es with
  | nil =>
    simp only [add_edge, List.mem_singleton] at he
    exact Or.inr (Or.inl he)
  | cons e0 rest ih =>
    rw [add_edge] at he
    by_cases hc : e0.1 = f ∧ e0.2.1 = t
    · rw [if_pos hc] at he
      rcases List.mem_cons.mp he with h | h
      · refine Or.inr (Or.inr ⟨e0.2.2, ?_, ?_⟩)
        · have : (f, t, e0.2.2) = e0 := by
            rw [← hc.1, ← hc.2]
          rw [this]; exact List.mem_cons_self _ _
        · rw [h, hc.1, hc.2]
      · exact Or.inl (List.mem_cons_of_mem _ h)
    · rw [if_neg hc] at he
      rcases List.mem_cons.mp he with h | h
      · exact Or.inl (by simp [h])
      · rcases ih h with h1 | h1 | ⟨l₀, hl, he2⟩
        · exact Or.inl (List.mem_cons_of_mem _ h1)
        · exact Or.inr (Or.inl h1)
        · exact Or.inr (Or.inr ⟨l₀, List.mem_cons_of_mem _ hl, he2⟩)

theorem mem_foldl_add_edge (l : List (Nat × Nat × Finset String))
    (acc : List (Nat × Nat × Finset String)) (f t : Nat) (lab : Finset String)
    (h : (f, t, lab) ∈ l.foldl (fun es e => add_edge es e.1 e.2.1 e.2.2) acc)
    (x : String) (hx : x ∈ lab) :
    (∃ l₀, (f, t, l₀) ∈ acc ∧ x ∈ l₀) ∨ (∃ l₀, (f, t, l₀) ∈ l ∧ x ∈ l₀) := by
  induction l generalizing acc with
  | nil => exact Or.inl ⟨lab, h, hx⟩
  | cons e rest ih =>
    simp only [List.foldl_cons] at h
    rcases ih _ h with ⟨l₀, hmem, hx0⟩ | ⟨l₀, hmem, hx0⟩
    · rcases mem_add_edge _ _ _ _ _ hmem with h1 | h1 | ⟨l₁, hl₁, he2⟩
      · exact Or.inl ⟨l₀, h1, hx0⟩
      · refine Or.inr ⟨l₀, ?_, hx0⟩
        have : e = (f, t, l₀) := by
          have he' : (e.1, e.2.1, e.2.2) = e := rfl
          rw [← he', h1]
        rw [← this]
        exact List.mem_cons_self _ _
      · have hf : f = e.1 := congrArg (fun p => p.1) he2
        have ht : t = e.2.1 := congrArg (fun p => p.2.1) he2
        have hl0 : l₀ = l₁ ∪ e.2.2 := congrArg (fun p => p.2.2) he2
        rcases Finset.mem_union.mp (hl0 ▸ hx0) with hx1 | hx1
        · refine Or.inl ⟨l₁, ?_, hx1⟩
          rw [hf, ht]; exact hl₁
        · refine Or.inr ⟨e.2.2, ?_, hx1⟩
          have : e = (f, t, e.2.2) := by
            have he' : (e.1, e.2.1, e.2.2) = e := rfl
            rw [← he', ← hf, ← ht]
          rw [← this]
          exact List.mem_cons_self _ _
    · exact Or.inr ⟨l₀, List.mem_cons_of_mem _ hmem, hx0⟩

/-! ## C5 -/

/-- C5 counterexample: the query `"foo"` and the `Default` local name
`"foo#1"` are equal after stripping (`is_ident_equal` holds), yet
`find_define_specifier` does not match the `Default` specifier, because the
code compares `Default` locals with plain `==`; likewise the edge
computation of `StatementGraph::new` produces no edge between a statement
using `"foo"` and one defining `"foo#1"`. -/
theorem find_define_specifier_default_unstripped :
    is_ident_equal "foo" "foo#1" = true ∧
    ImportInfo.find_define_specifier ⟨"./m", [ImportSpecifierInfo.Default "foo#1"], 0⟩ "foo" =
      none ∧
    buildEdges [exStmt 0 ∅ {"foo"} [], exStmt 1 {"foo#1"} ∅ []] = [] := by
  refine ⟨by decide, by decide, by decide⟩

/-- C5 (amended): locating the specifier that defines a queried ident uses
stripped equality only for `Namespace` and `Named` import specifiers;
`Default` specifiers are matched by plain (unstripped) string equality, and
the statement-graph edge computation also relates an ident used by `A` to
an ident defined by `B` by plain string identity (each edge-label member is
literally an element of both `B.defined_idents` and `A.used_idents`). -/
theorem import_and_edge_equality_modes :
    (∀ (info : ImportInfo) (i : String),
      (info.find_define_specifier i).isSome = true ↔
        ∃ s ∈ info.specifiers, (match s with
          | ImportSpecifierInfo.Namespace ns => strip_context i = strip_context ns
          | ImportSpecifierInfo.Named loc _ => strip_context i = strip_context loc
          | ImportSpecifierInfo.Default loc => i = loc)) ∧
    (∀ (stmts : List Statement) (f t : Nat) (lab : Finset String) (x : String),
      (f, t, lab) ∈ buildEdges stmts → x ∈ lab →
        ∃ a ∈ stmts, ∃ b ∈ stmts, a.id = f ∧ b.id = t ∧
          x ∈ b.defined_idents ∧ x ∈ a.used_idents) := by
  constructor
  · intro info i
    exact findDefineAux_isSome_iff i info.specifiers
  · intro stmts f t lab x hmem hx
    rcases mem_foldl_add_edge _ _ _ _ _ hmem x hx with ⟨l₀, h0, _⟩ | ⟨l₀, h0, hx0⟩
    · simp at h0
    · rw [edgesToAdd, List.mem_flatMap] at h0
      rcases h0 with ⟨a, ha, h1⟩
      rw [List.mem_filterMap] at h1
      rcases h1 with ⟨b, hb, h2⟩
      by_cases hne : (edgeLabel a b).Nonempty
      · rw [if_pos hne] at h2
        have h3 := Option.some.inj h2
        have hf : a.id = f := congrArg (fun p => p.1) h3
        have ht : b.id = t := congrArg (fun p => p.2.1) h3
        have hl : edgeLabel a b = l₀ := congrArg (fun p => p.2.2) h3
        have := hl ▸ hx0
        rw [edgeLabel, Finset.mem_filter] at this
        exact ⟨a, ha, b, hb, hf, ht, this.1, this.2⟩
      · rw [if_neg hne] at h2
        exact absurd h2 (by simp)

/-- C5 witness: the amended theorem's edge part applied to the first edge of
the two-statement module where statement 0 uses `x` and statement 1 defines
it. -/
theorem import_and_edge_equality_modes_witness :
    (0, 1, ({"x"} : Finset String)) ∈
      buildEdges [exStmt 0 ∅ {"x"} [], exStmt 1 {"x"} ∅ []] ∧
    (∃ a ∈ [exStmt 0 ∅ {"x"} [], exStmt 1 {"x"} ∅ []],
      ∃ b ∈ [exStmt 0 ∅ {"x"} [], exStmt 1 {"x"} ∅ []],
        a.id = 0 ∧ b.id = 1 ∧ "x" ∈ b.defined_idents ∧ "x" ∈ a.used_idents) :=
  ⟨by decide, import_and_edge_equality_modes.2 _ 0 1 {"x"} "x" (by decide) (by decide)⟩

theorem add_edge_not_mem (es : List (Nat × Nat × Finset String)) (f t : Nat)
    (lab : Finset String) (h : ∀ e ∈ es, ¬(e.1 = f ∧ e.2.1 = t)) :
    add_edge es f t lab = es ++ [(f, t, lab)] := by
  induction es with
  | nil => rfl
  | cons e rest ih =>
    rw [add_edge, if_neg (h e (by simp)), ih (fun x hx => h x (by simp [hx]))]
    rfl

theorem foldl_add_edge_nodup (l acc : List (Nat × Nat × Finset String))
    (h : ((acc ++ l).map (fun e => (e.1, e.2.1))).Nodup) :
    l.foldl (fun es e => add_edge es e.1 e.2.1 e.2.2) acc = acc ++ l := by
  induction l generalizing acc with
  | nil => simp
  | cons e rest ih =>
    simp only [List.foldl_cons]
    have hmem : ∀ x ∈ acc, ¬(x.1 = e.1 ∧ x.2.1 = e.2.1) := by
      intro x hx hc
      have hpair : (e.1, e.2.1) ∈ acc.map (fun y => (y.1, y.2.1)) := by
        rw [List.mem_map]
        exact ⟨x, hx, by rw [hc.1, hc.2]⟩
      have hsplit := h
      rw [List.map_append, List.nodup_append] at hsplit
      exact hsplit.2.2 hpair (by simp)
    have he : add_edge acc e.1 e.2.1 e.2.2 = acc ++ [e] := by
      rw [add_edge_not_mem _ _ _ _ hmem]
    rw [he, ih (acc ++ [e]) (by simpa using h)]
    simp

theorem filterMap_ite_eq_map_filter {A B : Type} (p : A → Prop) [DecidablePred p]
    (G : A → B) (l : List A) :
    l.filterMap (fun x => if p x then some (G x) else none) =
      (l.filter (fun x => decide (p x))).map G := by
  induction l with
  | nil => rfl
  | cons s rest ih =>
    by_cases hs : p s
    · simp [List.filterMap_cons, List.filter_cons, hs, ih]
    · simp [List.filterMap_cons, List.filter_cons, hs, ih]

theorem edgesToAdd_pairs_nodup (stmts : List Statement)
    (h : (stmts.map Statement.id).Nodup) :
    ((edgesToAdd stmts).map (fun e => (e.1, e.2.1))).Nodup := by
  have hstmts : stmts.Nodup := h.of_map _
  have hinj : ∀ x ∈ stmts, ∀ y ∈ stmts, x.id = y.id → x = y :=
    fun x hx y hy => List.inj_on_of_nodup_map h hx hy
  rw [edgesToAdd, List.map_flatMap]
  rw [List.nodup_flatMap]
  constructor
  · intro a _
    rw [List.map_filterMap]
    have heq : (fun b => Option.map (fun e => (e.1, e.2.1))
        (if (edgeLabel a b).Nonempty then some (a.id, b.id, edgeLabel a b) else none)) =
        (fun b => if (edgeLabel a b).Nonempty then some ((a.id, b.id) : Nat × Nat)
          else none) := by
      funext b
      by_cases hb : (edgeLabel a b).Nonempty <;> simp [hb]
    rw [heq, filterMap_ite_eq_map_filter]
    refine List.Nodup.map_on ?_ (hstmts.filter _)
    intro x hx y hy hxy
    exact hinj x (List.mem_filter.mp hx).1 y (List.mem_filter.mp hy).1
      (congrArg Prod.snd hxy)
  · have hpw : stmts.Pairwise (fun a b => a.id ≠ b.id) := List.pairwise_map.mp h
    refine hpw.imp ?_
    intro a b hne
    intro p hp hq
    simp only [List.map_filterMap] at hp hq
    rcases List.mem_filterMap.mp hp with ⟨x, _, hx⟩
    rcases List.mem_filterMap.mp hq with ⟨y, _, hy⟩
    by_cases h1 : (edgeLabel a x).Nonempty
    · by_cases h2 : (edgeLabel b y).Nonempty
      · simp only [h1, if_pos, Option.map_some] at hx
        simp only [h2, if_pos, Option.map_some] at hy
        have := (Option.some.inj hx).trans (Option.some.inj hy).symm
        exact hne (congrArg Prod.fst this)
      · simp [h2] at hy
    · simp [h1] at hx

theorem mem_edgesToAdd_iff (stmts : List Statement) (f t : Nat) (lab : Finset String) :
    (f, t, lab) ∈ edgesToAdd stmts ↔
      ∃ a ∈ stmts, ∃ b ∈ stmts, a.id = f ∧ b.id = t ∧ lab = edgeLabel a b ∧ lab.Nonempty := by
  rw [edgesToAdd, List.mem_flatMap]
  constructor
  · rintro ⟨a, ha, hmem⟩
    rcases List.mem_filterMap.mp hmem with ⟨b, hb, hx⟩
    by_cases hne : (edgeLabel a b).Nonempty
    · rw [if_pos hne] at hx
      have h3 := Option.some.inj hx
      have hf : a.id = f := congrArg (fun p => p.1) h3
      have ht : b.id = t := congrArg (fun p => p.2.1) h3
      have hl : edgeLabel a b = lab := congrArg (fun p => p.2.2) h3
      exact ⟨a, ha, b, hb, hf, ht, hl.symm, hl ▸ hne⟩
    · rw [if_neg hne] at hx
      exact absurd hx (by simp)
  · rintro ⟨a, ha, b, hb, hf, ht, hl, hne⟩
    refine ⟨a, ha, ?_⟩
    rw [List.mem_filterMap]
    refine ⟨b, hb, ?_⟩
    rw [if_pos (hl ▸ hne), hf, ht, hl]

theorem lookupEdge_add_edge (es : List (Nat × Nat × Finset String)) (f t : Nat)
    (l₀ l : Finset String) (h : lookupEdge es f t = some l₀) :
    lookupEdge (add_edge es f t l) f t = some (l₀ ∪ l) := by
  induction es with
  | nil => simp [lookupEdge] at h
  | cons e rest ih =>
    rw [lookupEdge] at h
    by_cases hc : e.1 = f ∧ e.2.1 = t
    · rw [if_pos hc] at h
      have hl : e.2.2 = l₀ := Option.some.inj h
      rw [add_edge, if_pos hc, lookupEdge, if_pos hc, hl]
    · rw [if_neg hc] at h
      rw [add_edge, if_neg hc, lookupEdge, if_neg hc]
      exact ih h

/-! ## C7 -/

/-- C7: for a module body with distinct statement ids, `StatementGraph::new`
has an edge `A → B` exactly when `A.used_idents ∩ B.defined_idents` is
non-empty, labelled with exactly that intersection; there is at most one
edge per ordered pair; and `add_edge` on an existing edge unions the new
idents into the label instead of adding a parallel edge. -/
theorem statement_graph_edge_structure (stmts : List Statement)
    (h : (stmts.map Statement.id).Nodup) :
    (∀ f t lab, (f, t, lab) ∈ (StatementGraph.new stmts).edges ↔
      ∃ a ∈ stmts, ∃ b ∈ stmts, a.id = f ∧ b.id = t ∧ lab = edgeLabel a b ∧ lab.Nonempty) ∧
    ((StatementGraph.new stmts).edges.Pairwise
      (fun e₁ e₂ => ¬(e₁.1 = e₂.1 ∧ e₁.2.1 = e₂.2.1))) ∧
    (∀ (es : List (Nat × Nat × Finset String)) (f t : Nat) (l₀ l : Finset String),
      lookupEdge es f t = some l₀ →
      lookupEdge (add_edge es f t l) f t = some (l₀ ∪ l)) := by
  have hbuild : buildEdges stmts = edgesToAdd stmts := by
    rw [buildEdges]
    have := foldl_add_edge_nodup (edgesToAdd stmts) []
      (by simpa using edgesToAdd_pairs_nodup stmts h)
    simpa using this
  refine ⟨?_, ?_, ?_⟩
  · intro f t lab
    show (f, t, lab) ∈ buildEdges stmts ↔ _
    rw [hbuild]
    exact mem_edgesToAdd_iff stmts f t lab
  · show (buildEdges stmts).Pairwise _
    rw [hbuild]
    have hnd := edgesToAdd_pairs_nodup stmts h
    have hpw := List.pairwise_map.mp hnd
    refine hpw.imp ?_
    intro a b hne hc
    exact hne (by rw [Prod.ext_iff]; exact ⟨hc.1, hc.2⟩)
  · exact lookupEdge_add_edge

/-- C7 witness: the theorem applied to a concrete two-statement body where
statement 0 uses the ident `x` that statement 1 defines. -/
theorem statement_graph_edge_structure_witness :
    (([exStmt 0 ∅ {"x"} [], exStmt 1 {"x"} ∅ []].map Statement.id).Nodup) ∧
    ((0, 1, ({"x"} : Finset String)) ∈
        (StatementGraph.new [exStmt 0 ∅ {"x"} [], exStmt 1 {"x"} ∅ []]).edges ↔
      ∃ a ∈ [exStmt 0 ∅ {"x"} [], exStmt 1 {"x"} ∅ []],
        ∃ b ∈ [exStmt 0 ∅ {"x"} [], exStmt 1 {"x"} ∅ []],
          a.id = 0 ∧ b.id = 1 ∧ ({"x"} : Finset String) = edgeLabel a b ∧
            ({"x"} : Finset String).Nonempty) :=
  ⟨by decide,
   (statement_graph_edge_structure [exStmt 0 ∅ {"x"} [], exStmt 1 {"x"} ∅ []]
     (by decide)).1 0 1 {"x"}⟩

/-! ## C2 -/

/-- C2: the visited key of `hash_stmt` joins the sorted idents with no
separator, so the two distinct used-defined-ident subsets `{"ab"}` and
`{"a", "b"}` of statement 0 produce the same re-entry key `"0:ab"` —
contradicting the claim that distinct subsets give distinct keys (and hence
a statement is not re-expanded when the colliding subset is requested). -/
theorem hash_stmt_collision :
    hash_stmt 0 {"ab"} = hash_stmt 0 {"a", "b"} ∧
    ({"ab"} : Finset String) ≠ {"a", "b"} ∧
    hash_stmt 0 {"ab"} = "0:ab" := by
  refine ⟨by decide, by decide, by decide⟩

/-! ## C3 -/

/-- C3: soundness fails on `cexGraph1` seeded with `cexSeeds`: statement 4
is live with the ident `ab`, whose registered dependency ident `z` is
provided by statement 5 through the edge `4 → 5` labelled `{z}`, yet
statement 5 is absent from the output (its expansion was skipped because
the visited keys of the requests `{a, b}` and `{ab}` to statement 4
collide). -/
theorem analyze_soundness_violation :
    outGet (analyze_used_statements_and_idents cexGraph1 cexSeeds) 5 = none ∧
    (outGet (analyze_used_statements_and_idents cexGraph1 cexSeeds) 4).isSome = true ∧
    "z" ∈ outputNeeds cexGraph1 (analyze_used_statements_and_idents cexGraph1 cexSeeds) 4 ∧
    "z" ∈ (cexGraph1.stmt 5).defined_idents ∧
    (4, 5, ({"z"} : Finset String)) ∈ cexGraph1.edges ∧
    (({"z"} : Finset String) ∩
      outputNeeds cexGraph1 (analyze_used_statements_and_idents cexGraph1 cexSeeds) 4).Nonempty := by
  refine ⟨by decide, by decide, by decide, by decide, by decide, by decide⟩

/-! ## C4 -/

/-- C4: the output of `analyze_used_statements_and_idents` depends on the
iteration order of the dependency edges: `cexGraph2` differs from
`cexGraph1` only by swapping the order of statement 0's two out-edges (the
edge lists are permutations of each other and the statements identical),
yet the outputs differ — statement 5 is live in one run and dead in the
other. -/
theorem analyze_order_dependence :
    cexGraph2.stmts = cexGraph1.stmts ∧
    cexGraph2.edges.Perm cexGraph1.edges ∧
    analyze_used_statements_and_idents cexGraph2 cexSeeds ≠
      analyze_used_statements_and_idents cexGraph1 cexSeeds ∧
    outGet (analyze_used_statements_and_idents cexGraph2 cexSeeds) 5 = some {"z"} ∧
    outGet (analyze_used_statements_and_idents cexGraph1 cexSeeds) 5 = none := by
  refine ⟨by decide, by decide, by decide, by decide, by decide⟩

theorem trimDotSlash_dot_slash_append (s : String) :
    trimDotSlash ("./" ++ s) = trimDotSlash s := by
  rw [trimDotSlash, trimDotSlash, String.data_append]
  have hd : ("./" : String).data = ['.', '/'] := rfl
  rw [hd]
  simp [trimDotSlashAux]

theorem trimDotSlash_star_star (s : String) :
    trimDotSlash ("**/" ++ s) = "**/" ++ s := by
  rw [trimDotSlash, String.data_append]
  have hd : ("**/" : String).data = ['*', '*', '/'] := rfl
  rw [hd]
  have hs : trimDotSlashAux (['*', '*', '/'] ++ s.data) = ['*', '*', '/'] ++ s.data := by
    simp [trimDotSlashAux]
  rw [hs, ← hd, ← String.data_append]

theorem slash_mem_append_left (a b : String) (h : '/' ∈ a.data) : '/' ∈ (a ++ b).data := by
  rw [String.data_append]
  exact List.mem_append_left _ h

/-! ## C6 -/

/-- C6 counterexample: the pattern `foo.js` contains no slash, and matching
it against `a/foo.js` succeeds (implicit `**/` prefix), but prepending `./`
to the pattern changes the result to `false`: `./foo.js` contains a slash,
so it is matched literally (after stripping `./`) with no `**/` prefix --
prepending or stripping a leading `./` on the pattern does change the
result. -/
theorem match_glob_pattern_dot_slash_cex :
    ('/' ∉ ("foo.js" : String).data) ∧
    match_glob_pattern "foo.js" "a/foo.js" = true ∧
    match_glob_pattern "./foo.js" "a/foo.js" = false := by
  refine ⟨by decide, by decide, by decide⟩

/-- C6 (amended): for every pattern `p` without `/`, `match_glob_pattern p
path` agrees with `match_glob_pattern ("**/" ++ p) path`; prepending (or
stripping) a leading `./` on the path never changes the result; and
prepending a leading `./` to the pattern does not change the result
provided the pattern contains a `/` (for slashless patterns it switches the
branch and can change the result, as the counterexample shows). -/
theorem match_glob_pattern_laws (p path : String) :
    ('/' ∉ p.data → match_glob_pattern p path = match_glob_pattern ("**/" ++ p) path) ∧
    (match_glob_pattern p ("./" ++ path) = match_glob_pattern p path) ∧
    ('/' ∈ p.data → match_glob_pattern ("./" ++ p) path = match_glob_pattern p path) := by
  refine ⟨?_, ?_, ?_⟩
  · intro hno
    rw [match_glob_pattern, match_glob_pattern]
    rw [if_neg hno, if_pos (slash_mem_append_left "**/" p (by decide))]
    rw [trimDotSlash_star_star]
  · rw [match_glob_pattern, match_glob_pattern, trimDotSlash_dot_slash_append]
  · intro hyes
    rw [match_glob_pattern, match_glob_pattern]
    rw [if_pos hyes, if_pos (slash_mem_append_left "./" p (by decide))]
    rw [trimDotSlash_dot_slash_append]

/-- C6 witness: the amended theorem's first and second laws applied to the
slashless pattern `foo.js` and the path `a/foo.js`. -/
theorem match_glob_pattern_laws_witness :
    ('/' ∉ ("foo.js" : String).data) ∧
    match_glob_pattern "foo.js" "a/foo.js" =
      match_glob_pattern ("**/" ++ "foo.js") "a/foo.js" ∧
    match_glob_pattern "foo.js" ("./" ++ "a/foo.js") =
      match_glob_pattern "foo.js" "a/foo.js" :=
  ⟨by decide, (match_glob_pattern_laws "foo.js" "a/foo.js").1 (by decide),
    (match_glob_pattern_laws "foo.js" "a/foo.js").2.1⟩

theorem matchFlagAny_eq_any (l : List JsonValue) (path : String) :
    matchFlagAny l path = l.any (fun f => match_flag f path) := by
  induction l with
  | nil => rfl
  | cons f rest ih => simp [matchFlagAny, ih]

/-! ## C8 -/

/-- C8: `get_side_effects_flag` returns `true` whenever the module has no
resolved package descriptor (no resolver resource, a non-`Resolved`
resource, or a `Resolved` one without a manifest), whenever the manifest
lacks a `sideEffects` entry, and whenever that entry's JSON type is none of
boolean, string or array; an array entry yields the logical OR of
recursively matching each element. -/
theorem get_side_effects_flag_defaults (m : ModuleInfo) :
    (m.resolved_resource = none → m.get_side_effects_flag = true) ∧
    (m.resolved_resource = some ResolverResource.Other → m.get_side_effects_flag = true) ∧
    (∀ r, m.resolved_resource = some (ResolverResource.Resolved r) →
      r.package_json = none → m.get_side_effects_flag = true) ∧
    (∀ r desc, m.resolved_resource = some (ResolverResource.Resolved r) →
      r.package_json = some desc → desc.raw_json.lookup "sideEffects" = none →
      m.get_side_effects_flag = true) ∧
    (∀ r desc v, m.resolved_resource = some (ResolverResource.Resolved r) →
      r.package_json = some desc → desc.raw_json.lookup "sideEffects" = some v →
      (v = JsonValue.null ∨ v = JsonValue.num ∨ v = JsonValue.obj) →
      m.get_side_effects_flag = true) ∧
    (∀ r desc elems, m.resolved_resource = some (ResolverResource.Resolved r) →
      r.package_json = some desc →
      desc.raw_json.lookup "sideEffects" = some (JsonValue.arr elems) →
      m.get_side_effects_flag =
        elems.any (fun f => match_flag f (relative_to_root m.path desc.directory))) := by
  refine ⟨?_, ?_, ?_, ?_, ?_, ?_⟩
  · intro h; simp [ModuleInfo.get_side_effects_flag, h]
  · intro h; simp [ModuleInfo.get_side_effects_flag, h]
  · intro r h hp; simp [ModuleInfo.get_side_effects_flag, h, hp]
  · intro r desc h hp hl; simp [ModuleInfo.get_side_effects_flag, h, hp, hl]
  · intro r desc v h hp hl hv
    rcases hv with hv | hv | hv <;>
      simp [ModuleInfo.get_side_effects_flag, h, hp, hl, hv, match_flag]
  · intro r desc elems h hp hl
    simp [ModuleInfo.get_side_effects_flag, h, hp, hl, match_flag, matchFlagAny_eq_any]

/-- C8 witness: the theorem applied to a module with no resolver resource,
and to a module whose manifest declares `sideEffects: [false, "*.css"]`. -/
theorem get_side_effects_flag_defaults_witness :
    ModuleInfo.get_side_effects_flag ⟨none, "/pkg/a.js"⟩ = true ∧
    ModuleInfo.get_side_effects_flag
      ⟨some (ResolverResource.Resolved ⟨some ⟨[("sideEffects",
        JsonValue.arr [JsonValue.bool false, JsonValue.str "*.css"])], "/pkg"⟩⟩), "/pkg/a.js"⟩ =
      [JsonValue.bool false, JsonValue.str "*.css"].any
        (fun f => match_flag f (relative_to_root "/pkg/a.js" "/pkg")) :=
  ⟨(get_side_effects_flag_defaults ⟨none, "/pkg/a.js"⟩).1 rfl,
   (get_side_effects_flag_defaults
      ⟨some (ResolverResource.Resolved ⟨some ⟨[("sideEffects",
        JsonValue.arr [JsonValue.bool false, JsonValue.str "*.css"])], "/pkg"⟩⟩),
       "/pkg/a.js"⟩).2.2.2.2.2
     ⟨some ⟨[("sideEffects",
        JsonValue.arr [JsonValue.bool false, JsonValue.str "*.css"])], "/pkg"⟩⟩
     ⟨[("sideEffects", JsonValue.arr [JsonValue.bool false, JsonValue.str "*.css"])], "/pkg"⟩
     [JsonValue.bool false, JsonValue.str "*.css"] rfl rfl rfl⟩

theorem outGet_outSet (m : OutMap) (k : Nat) (v : Finset String) :
    outGet (outSet m k v) k = some v := by
  induction m with
  | nil => simp [outSet, outGet]
  | cons p rest ih =>
    rw [outSet]
    by_cases h1 : k < p.1
    · rw [if_pos h1, outGet, if_pos rfl]
    · rw [if_neg h1]
      by_cases h2 : k = p.1
      · rw [if_pos h2, outGet, if_pos rfl]
      · rw [if_neg h2, outGet, if_neg (fun hh => h2 hh.symm)]
        exact ih

/-! ## C10 -/

/-- C10: in the seed phase, processing an `ExportAll` member replaces the
output entry of the statement with exactly the singleton `{"*"}`, discarding
whatever had been accumulated there (for instance by an earlier
`InExportAll` member of the same seed set), whereas processing
`InExportAll name` merges `name` into the existing entry (or creates the
singleton `{name}`); both set the `skip` flag. -/
theorem seed_export_all_replaces_output (g : StatementGraph) (stmt_id : Nat)
    (acc : SeedAcc) (name : String) :
    outGet (seedStep g stmt_id acc UsedIdent.ExportAll).output stmt_id = some {"*"} ∧
    outGet (seedStep g stmt_id acc (UsedIdent.InExportAll name)).output stmt_id =
      some ((outGet acc.output stmt_id).elim {name} (fun s => insert name s)) ∧
    (seedStep g stmt_id acc UsedIdent.ExportAll).skip = true ∧
    (seedStep g stmt_id acc (UsedIdent.InExportAll name)).skip = true := by
  refine ⟨?_, ?_, rfl, rfl⟩
  · exact outGet_outSet _ _ _
  · exact outGet_outSet _ _ _

/-! ## C9: termination of the fixpoint loop -/

theorem mergeQueue_length (q : List QEntry) (i : Nat) (a b : Finset String) :
    (mergeQueue q i a b).length ≤ q.length + 1 := by
  induction q with
  | nil => simp [mergeQueue]
  | cons e rest ih =>
    rw [mergeQueue]
    by_cases hc : e.1 = i
    · rw [if_pos hc]
      simp
    · rw [if_neg hc]
      simpa using Nat.add_le_add_right ih 1

theorem mergeQueue_ok (S : Finset Nat) (U : Finset String) (q : List QEntry)
    (i : Nat) (a b : Finset String) (hq : queueOk S U q) (hi : i ∈ S) (ha : a ⊆ U)
    (hb : b ⊆ U) : queueOk S U (mergeQueue q i a b) := by
  induction q with
  | nil =>
    intro e he
    simp only [mergeQueue, List.mem_singleton] at he
    subst he
    exact ⟨hi, ha, hb⟩
  | cons e0 rest ih =>
    rw [mergeQueue]
    by_cases hc : e0.1 = i
    · rw [if_pos hc]
      intro e he
      rcases List.mem_cons.mp he with h | h
      · subst h
        have h0 := hq e0 (by simp)
        exact ⟨h0.1, Finset.union_subset h0.2.1 ha, Finset.union_subset h0.2.2 hb⟩
      · exact hq e (List.mem_cons_of_mem _ h)
    · rw [if_neg hc]
      intro e he
      rcases List.mem_cons.mp he with h | h
      · subst h
        exact hq _ (List.mem_cons_self _ _)
      · exact ih (fun x hx => hq x (List.mem_cons_of_mem _ hx)) e h

theorem expandDeps_length (uii : Finset String) (deps : List (Statement × Finset String))
    (q : List QEntry) : (expandDeps uii deps q).length ≤ q.length + deps.length := by
  induction deps generalizing q with
  | nil => simp [expandDeps]
  | cons d rest ih =>
    rw [expandDeps, List.foldl_cons]
    by_cases hc : (d.2 ∩ uii).Nonempty
    · rw [if_pos hc]
      calc (expandDeps uii rest (mergeQueue q d.1.id (depUsedDefined d.1 uii)
              (depStmtIdents d.1 uii))).length
          ≤ (mergeQueue q d.1.id (depUsedDefined d.1 uii) (depStmtIdents d.1 uii)).length
              + rest.length := ih _
        _ ≤ q.length + 1 + rest.length :=
              Nat.add_le_add_right (mergeQueue_length _ _ _ _) _
        _ = q.length + (rest.length + 1) := by omega
    · rw [if_neg hc]
      calc (expandDeps uii rest q).length ≤ q.length + rest.length := ih q
        _ ≤ q.length + (rest.length + 1) := by omega

theorem stmt_mem_or_default (g : StatementGraph) (t : Nat) :
    g.stmt t ∈ g.stmts ∨ g.stmt t = default := by
  rw [StatementGraph.stmt]
  cases hf : g.stmts.find? (fun s => s.id == t) with
  | none => exact Or.inr rfl
  | some s => exact Or.inl (by simpa using List.mem_of_find?_eq_some hf)

theorem subset_unionList {A : Type} (l : List A) (f : A → Finset String) (x : A)
    (hx : x ∈ l) : f x ⊆ unionList (l.map f) := by
  induction l with
  | nil => simp at hx
  | cons y rest ih =>
    rcases List.mem_cons.mp hx with h | h
    · subst h
      simp only [unionList, List.map_cons, List.foldr_cons]
      exact Finset.subset_union_left
    · simp only [unionList, List.map_cons, List.foldr_cons]
      exact (ih h).trans Finset.subset_union_right

theorem lookup_mem_map_snd {A B : Type} [BEq A] (m : List (A × B)) (n : A) (v : B)
    (h : m.lookup n = some v) : v ∈ m.map Prod.snd := by
  induction m with
  | nil => simp [List.lookup] at h
  | cons p rest ih =>
    cases hc : (n == p.1) with
    | true =>
      have hv : some p.2 = some v := by rw [List.lookup, hc] at h; exact h
      simp [Option.some.inj hv]
    | false =>
      have hrest : List.lookup n rest = some v := by rw [List.lookup, hc] at h; exact h
      simp [ih hrest]

theorem lookup_subset_stmtMapIdents (s : Statement) (n : String) (v : Finset String)
    (h : s.defined_idents_map.lookup n = some v) : v ⊆ stmtMapIdents s := by
  have hv := lookup_mem_map_snd _ _ _ h
  rw [List.mem_map] at hv
  rcases hv with ⟨p, hp, hpv⟩
  rw [stmtMapIdents]
  exact hpv ▸ subset_unionList s.defined_idents_map (fun q => q.2) p hp

theorem depUsedDefined_subset (dep : Statement) (uii : Finset String) :
    depUsedDefined dep uii ⊆ uii :=
  Finset.filter_subset _ _

theorem depStmtIdents_subset (dep : Statement) (uii : Finset String) :
    depStmtIdents dep uii ⊆ stmtMapIdents dep := by
  rw [depStmtIdents]
  refine Finset.biUnion_subset.mpr ?_
  intro n _
  cases hl : dep.defined_idents_map.lookup n with
  | none => simp
  | some v =>
    simp only [Option.getD_some]
    exact lookup_subset_stmtMapIdents dep n v hl

theorem stmtMapIdents_default : stmtMapIdents (default : Statement) = ∅ := rfl

theorem dependencies_ok (g : StatementGraph) (S : Finset Nat) (U : Finset String)
    (hg : graphOk g S U) (sid : Nat) :
    ∀ d ∈ g.dependencies sid, d.1.id ∈ S ∧ stmtMapIdents d.1 ⊆ U := by
  intro d hd
  rw [StatementGraph.dependencies] at hd
  rcases List.mem_filterMap.mp hd with ⟨e, _, he⟩
  by_cases hc : e.1 = sid
  · rw [if_pos hc] at he
    have hstmt : d.1 = g.stmt e.2.1 :=
      (congrArg (fun p => p.1) (Option.some.inj he)).symm
    rcases stmt_mem_or_default g e.2.1 with hm | hdef
    · rw [hstmt]
      exact hg.2 _ hm
    · rw [hstmt, hdef]
      exact ⟨hg.1, by rw [stmtMapIdents_default]; exact Finset.empty_subset U⟩
  · rw [if_neg hc] at he
    exact absurd he (by simp)

theorem expandDeps_ok (S : Finset Nat) (U : Finset String) (uii : Finset String)
    (hu : uii ⊆ U) (deps : List (Statement × Finset String))
    (hdeps : ∀ d ∈ deps, d.1.id ∈ S ∧ stmtMapIdents d.1 ⊆ U) (q : List QEntry)
    (hq : queueOk S U q) : queueOk S U (expandDeps uii deps q) := by
  induction deps generalizing q with
  | nil => exact hq
  | cons d rest ih =>
    have hd := hdeps d (by simp)
    have hrest : ∀ x ∈ rest, x.1.id ∈ S ∧ stmtMapIdents x.1 ⊆ U :=
      fun x hx => hdeps x (by simp [hx])
    by_cases hc : (d.2 ∩ uii).Nonempty
    · have hstep : expandDeps uii (d :: rest) q = expandDeps uii rest
          (mergeQueue q d.1.id (depUsedDefined d.1 uii) (depStmtIdents d.1 uii)) := by
        rw [expandDeps, expandDeps, List.foldl_cons, if_pos hc]
      rw [hstep]
      exact ih hrest _ (mergeQueue_ok S U q _ _ _ hq hd.1
        ((depUsedDefined_subset d.1 uii).trans hu)
        ((depStmtIdents_subset d.1 uii).trans hd.2))
    · have hstep : expandDeps uii (d :: rest) q = expandDeps uii rest q := by
        rw [expandDeps, expandDeps, List.foldl_cons, if_neg hc]
      rw [hstep]
      exact ih hrest _ hq

theorem stepLoop_ok (g : StatementGraph) (S : Finset Nat) (U : Finset String)
    (hg : graphOk g S U) (st : LoopState) (hq : queueOk S U st.queue) :
    queueOk S U (stepLoop g st).queue := by
  cases hqs : st.queue with
  | nil =>
    simp only [stepLoop, hqs]
    intro e he
    exact absurd he (List.not_mem_nil e)
  | cons hd rest =>
    obtain ⟨sid, udi, uii⟩ := hd
    have hhead : sid ∈ S ∧ udi ⊆ U ∧ uii ⊆ U :=
      hq (sid, udi, uii) (by rw [hqs]; exact List.mem_cons_self _ _)
    have hrest : queueOk S U rest :=
      fun x hx => hq x (by rw [hqs]; exact List.mem_cons_of_mem _ hx)
    simp only [stepLoop, hqs]
    by_cases hv : hash_stmt sid udi ∈ st.visited
    · rw [if_pos hv]
      exact hrest
    · rw [if_neg hv]
      exact expandDeps_ok S U uii hhead.2.2 _ (dependencies_ok g S U hg sid) rest hrest

theorem dependencies_length (g : StatementGraph) (sid : Nat) :
    (g.dependencies sid).length ≤ g.edges.length :=
  List.length_filterMap_le _ _

theorem stepLoop_measure_lt (g : StatementGraph) (S : Finset Nat) (U : Finset String)
    (st : LoopState) (hq : queueOk S U st.queue) (hne : st.queue ≠ []) :
    loopMeasure g S U (stepLoop g st) < loopMeasure g S U st := by
  cases hqs : st.queue with
  | nil => exact absurd hqs hne
  | cons hd rest =>
    obtain ⟨sid, udi, uii⟩ := hd
    have hhead : sid ∈ S ∧ udi ⊆ U ∧ uii ⊆ U :=
      hq (sid, udi, uii) (by rw [hqs]; exact List.mem_cons_self _ _)
    simp only [stepLoop, hqs]
    by_cases hv : hash_stmt sid udi ∈ st.visited
    · rw [if_pos hv]
      rw [loopMeasure, loopMeasure, hqs]
      simp only [List.length_cons]
      omega
    · rw [if_neg hv]
      have hmem : hash_stmt sid udi ∈ allowedHashes S U := by
        rw [allowedHashes]
        exact Finset.mem_image.mpr ⟨(sid, udi),
          Finset.mem_product.mpr ⟨hhead.1, Finset.mem_powerset.mpr hhead.2.1⟩, rfl⟩
      have hsd : allowedHashes S U \ insert (hash_stmt sid udi) st.visited =
          (allowedHashes S U \ st.visited).erase (hash_stmt sid udi) := by
        ext x
        simp only [Finset.mem_sdiff, Finset.mem_erase, Finset.mem_insert]
        tauto
      have hin : hash_stmt sid udi ∈ allowedHashes S U \ st.visited :=
        Finset.mem_sdiff.mpr ⟨hmem, hv⟩
      have hcard : (allowedHashes S U \ insert (hash_stmt sid udi) st.visited).card =
          (allowedHashes S U \ st.visited).card - 1 := by
        rw [hsd, Finset.card_erase_of_mem hin]
      have hpos : 0 < (allowedHashes S U \ st.visited).card :=
        Finset.card_pos.mpr ⟨_, hin⟩
      have hlen : (expandDeps uii (g.dependencies sid) rest).length ≤
          rest.length + g.edges.length :=
        (expandDeps_length _ _ _).trans
          (Nat.add_le_add_left (dependencies_length g sid) _)
      rw [loopMeasure, loopMeasure, hqs]
      simp only [List.length_cons]
      rw [hcard]
      obtain ⟨c, hc⟩ : ∃ c, (allowedHashes S U \ st.visited).card = c + 1 :=
        ⟨(allowedHashes S U \ st.visited).card - 1, by omega⟩
      rw [hc]
      simp only [Nat.add_sub_cancel]
      have hE : (c + 1) * (g.edges.length + 1) =
          c * (g.edges.length + 1) + (g.edges.length + 1) := by ring
      rw [hE]
      generalize c * (g.edges.length + 1) = K
      omega

theorem loopFuel_drains (g : StatementGraph) (S : Finset Nat) (U : Finset String)
    (hg : graphOk g S U) :
    ∀ (n : Nat) (st : LoopState), queueOk S U st.queue → loopMeasure g S U st ≤ n →
      (loopFuel g n st).queue = [] := by
  intro n
  induction n with
  | zero =>
    intro st _ hm
    rw [loopFuel]
    rw [loopMeasure] at hm
    have hlen : st.queue.length = 0 := by omega
    exact List.length_eq_zero.mp hlen
  | succ n ih =>
    intro st hq hm
    cases hqs : st.queue with
    | nil =>
      simp only [loopFuel, hqs]
    | cons hd rest =>
      simp only [loopFuel, hqs]
      refine ih (stepLoop g st) (stepLoop_ok g S U hg st hq) ?_
      have hlt := stepLoop_measure_lt g S U st hq (by rw [hqs]; simp)
      omega

theorem graphOk_universe (g : StatementGraph) (st : LoopState) :
    graphOk g (idUniverse g st) (identUniverse g st) := by
  constructor
  · rw [idUniverse]
    exact Finset.mem_insert_self _ _
  · intro s hs
    constructor
    · rw [idUniverse]
      apply Finset.mem_insert_of_mem
      apply Finset.mem_union_left
      rw [List.mem_toFinset]
      exact List.mem_map_of_mem _ hs
    · rw [identUniverse]
      exact (subset_unionList _ stmtMapIdents s hs).trans Finset.subset_union_left

theorem queueOk_universe (g : StatementGraph) (st : LoopState) :
    queueOk (idUniverse g st) (identUniverse g st) st.queue := by
  intro e he
  refine ⟨?_, ?_, ?_⟩
  · rw [idUniverse]
    apply Finset.mem_insert_of_mem
    apply Finset.mem_union_right
    rw [List.mem_toFinset]
    exact List.mem_map_of_mem _ he
  · rw [identUniverse]
    refine Finset.Subset.trans ?_ Finset.subset_union_right
    exact Finset.Subset.trans Finset.subset_union_left
      (subset_unionList st.queue (fun x => x.2.1 ∪ x.2.2) e he)
  · rw [identUniverse]
    refine Finset.Subset.trans ?_ Finset.subset_union_right
    exact Finset.Subset.trans Finset.subset_union_right
      (subset_unionList st.queue (fun x => x.2.1 ∪ x.2.2) e he)

theorem loopMeasure_le_fuelBound (g : StatementGraph) (st : LoopState) :
    loopMeasure g (idUniverse g st) (identUniverse g st) st ≤ fuelBound g st := by
  rw [loopMeasure, fuelBound]
  refine Nat.add_le_add ?_ (le_refl _)
  refine Nat.mul_le_mul_right _ ?_
  calc (allowedHashes (idUniverse g st) (identUniverse g st) \ st.visited).card
      ≤ (allowedHashes (idUniverse g st) (identUniverse g st)).card :=
        Finset.card_le_card Finset.sdiff_subset
    _ ≤ ((idUniverse g st) ×ˢ (identUniverse g st).powerset).card :=
        Finset.card_image_le
    _ = (idUniverse g st).card * ((identUniverse g st).powerset).card :=
        Finset.card_product _ _
    _ = (idUniverse g st).card * 2 ^ (identUniverse g st).card := by
        rw [Finset.card_powerset]

/-! ## C9 -/

/-- C9: the fixpoint loop of `analyze_used_statements_and_idents` drains
its work queue within `fuelBound` iterations for every finite statement
graph and every loop state (in particular the state seeded by
`processEntry`): the visited cache admits at most one expansion per
distinct `(stmt_id, used-defined-ident subset)` key drawn from the finite
ident universe, each expansion enqueues at most one (possibly merged)
request per edge, and every other iteration shortens the queue. -/
theorem analyze_fixpoint_terminates (g : StatementGraph) (st : LoopState) :
    (loopFuel g (fuelBound g st) st).queue = [] :=
  loopFuel_drains g (idUniverse g st) (identUniverse g st) (graphOk_universe g st)
    (fuelBound g st) st (queueOk_universe g st) (loopMeasure_le_fuelBound g st)
